import Mathlib

/-!
Verification development for the Mandelbrot renderer in src/main.rs.

Modelling conventions:
* Rust f64 arithmetic is modelled by exact rational arithmetic (ℚ).  Every
  numeric constant appearing in the claims is a dyadic rational that is exactly
  representable in f64, and the integer/branching structure of the program does
  not depend on rounding, so the model is faithful for those claims.
* Machine integers (usize, u32, u8) are modelled by Nat, with explicit `% 256`
  where u8 truncation happens in the source (`count as u8`).
* Panics (the assert in `render`, the chunk-size-0 panic of `chunks_mut`) are
  modelled by `Option`, `none` standing for the panic.
* Loops are translated to structural recursion / folds with explicit fuel.
-/

/-- Model of the external type num_complex::Complex64; the two f64 components
are modelled as exact rationals. -/
structure Complex64 where
  re : ℚ
  im : ℚ
deriving DecidableEq

instance : Mul Complex64 :=
  ⟨fun a b => ⟨a.re * b.re - a.im * b.im, a.re * b.im + a.im * b.re⟩⟩

instance : Add Complex64 :=
  ⟨fun a b => ⟨a.re + b.re, a.im + b.im⟩⟩

/-- Model of Complex64::norm_sqr: squared norm, re² + im². -/
def Complex64.norm_sqr (z : Complex64) : ℚ :=
  z.re * z.re + z.im * z.im

/-- The orbit of the escape-time loop: z₀ = 0 and z_{n+1} = z_n * z_n + c.
Used to state what escape_time computes. -/
def zIter (c : Complex64) : Nat → Complex64
  | 0 => ⟨0, 0⟩
  | n + 1 => zIter c n * zIter c n + c

/-- Body of the loop in escape_time from src/main.rs: z is the current value,
i the current loop index, fuel the number of remaining iterations.  Each step
first updates z to z*z + c and then tests norm_sqr > 4, exactly as the source
does. -/
def escapeAux (c : Complex64) (z : Complex64) (i fuel : Nat) : Option Nat :=
  match fuel with
  | 0 => none
  | fuel' + 1 =>
    let z2 := z * z + c
    if 4 < z2.norm_sqr then some i else escapeAux c z2 (i + 1) fuel'

/-- Translation of escape_time from src/main.rs: iterate z = z*z + c from
z = 0 for at most limit steps, returning the index of the first iteration
whose updated z has norm_sqr > 4, and none if no escape occurs. -/
def escape_time (c : Complex64) (limit : Nat) : Option Nat :=
  escapeAux c ⟨0, 0⟩ 0 limit

/-- Translation of pixel_to_point from src/main.rs.  bounds is (width, height)
and pixel is (column, row), matching the Rust tuples. -/
def pixel_to_point (bounds : Nat × Nat) (pixel : Nat × Nat)
    (upper_l lower_r : Complex64) : Complex64 :=
  let w : ℚ := lower_r.re - upper_l.re
  let h : ℚ := upper_l.im - lower_r.im
  ⟨upper_l.re + (pixel.1 : ℚ) * w / (bounds.1 : ℚ),
   upper_l.im - (pixel.2 : ℚ) * h / (bounds.2 : ℚ)⟩

/-- The byte render writes for one pixel: 0 when escape_time (with limit 255)
returns none, and 255 - count as u8 (u8 truncation modelled by % 256) when it
returns some count. -/
def pixelByte (bounds : Nat × Nat) (upper_l lower_r : Complex64)
    (col row : Nat) : Nat :=
  match escape_time (pixel_to_point bounds (col, row) upper_l lower_r) 255 with
  | none => 0
  | some count => 255 - count % 256

/-- Translation of render from src/main.rs.  The failed assert
(pixels.len() == bounds.0 * bounds.1) is modelled by none; otherwise the two
nested loops write pixelByte at index row * width + col for every row < height
and col < width, in row-major order. -/
def render (pixels : List Nat) (bounds : Nat × Nat)
    (upper_l lower_r : Complex64) : Option (List Nat) :=
  if pixels.length = bounds.1 * bounds.2 then
    some ((List.range bounds.2).foldl
      (fun acc row => (List.range bounds.1).foldl
        (fun acc2 col =>
          acc2.set (row * bounds.1 + col) (pixelByte bounds upper_l lower_r col row))
        acc)
      pixels)
  else none

/-- Model of the external str::find(char): index of the first occurrence of
the separator. -/
def findChar (sep : Char) : List Char → Option Nat
  | [] => none
  | c :: cs => if c = sep then some 0 else (findChar sep cs).map (· + 1)

/-- Translation of parse_pair from src/main.rs, generic over the external
T::from_str (passed as fromStr).  Strings are modelled as lists of characters;
the source slices s[0..idx] and s[idx+1..] become take idx and drop (idx+1). -/
def parse_pair {T : Type} (fromStr : List Char → Option T)
    (s : List Char) (separator : Char) : Option (T × T) :=
  match findChar separator s with
  | none => none
  | some idx =>
    match fromStr (s.take idx), fromStr (s.drop (idx + 1)) with
    | some left, some right => some (left, right)
    | _, _ => none

/-- Helper of the integer parser model: accumulate decimal digits, failing on
any non-digit character. -/
def decDigits (s : List Char) : Option Nat :=
  s.foldl
    (fun acc c =>
      match acc with
      | none => none
      | some n => if c.isDigit then some (n * 10 + (c.toNat - 48)) else none)
    (some 0)

/-- Model of the external u32::from_str: an optional leading plus sign followed
by one or more decimal digits, with the value below 2^32. -/
def u32FromStr (s : List Char) : Option Nat :=
  let t := match s with
    | c :: rest => if c = '+' then rest else s
    | [] => []
  if t = [] then none
  else match decDigits t with
    | some n => if n < 2 ^ 32 then some n else none
    | none => none

/-- Unsigned part of the f64 parser model: an integer part and an optional
fractional part after a dot, with at least one digit overall; the value is
represented exactly as a rational. -/
def f64Core (t : List Char) : Option ℚ :=
  match findChar '.' t with
  | none =>
    match t with
    | [] => none
    | _ => (decDigits t).map (fun n => (n : ℚ))
  | some idx =>
    if t.take idx = [] ∧ t.drop (idx + 1) = [] then none
    else
      match decDigits (t.take idx), decDigits (t.drop (idx + 1)) with
      | some a, some b =>
        some ((a : ℚ) + (b : ℚ) / (10 : ℚ) ^ (t.drop (idx + 1)).length)
      | _, _ => none

/-- Model of the external f64::from_str, restricted to plain decimal literals:
an optional sign followed by an unsigned decimal literal. -/
def f64FromStr : List Char → Option ℚ
  | [] => none
  | c :: rest =>
    if c = '-' then (f64Core rest).map (fun q => -q)
    else if c = '+' then f64Core rest
    else f64Core (c :: rest)

/-- Translation of parse_complex from src/main.rs: parse_pair with the f64
parser and separator comma. -/
def parse_complex (s : List Char) : Option Complex64 :=
  match parse_pair f64FromStr s ',' with
  | some (re, im) => some ⟨re, im⟩
  | none => none

/-- The worker-count constant THREADS from main. -/
def THREADS : Nat := 8

/-- Model of slice::chunks_mut with nonzero chunk size c: split the list into
chunks of c elements, the last chunk possibly shorter.  The fuel argument
(instantiated with the list length) only serves termination. -/
def chunksFuel {α : Type} (c : Nat) : Nat → List α → List (List α)
  | 0, _ => []
  | _, [] => []
  | fuel + 1, a :: l => ((a :: l).take c) :: chunksFuel c fuel ((a :: l).drop c)

/-- Model of slice::chunks_mut: none models the panic on chunk size 0. -/
def chunks? {α : Type} (c : Nat) (l : List α) : Option (List (List α)) :=
  if c = 0 then none else some (chunksFuel c l.length l)

/-- The band list exactly as main builds it: chunks_mut(rows_per_band * width)
over the width*height pixel buffer, band i described by its row range
(top, height) with top = rows_per_band * i and height = band.len() / width.
K is the worker count (THREADS = 8 in the source, kept as a parameter because
the spec quantifies over it); rows_per_band = height / (K + 1).  none models
the chunk-size-0 panic (which happens whenever rows_per_band * width = 0). -/
def scheduleBands (K w h : Nat) : Option (List (Nat × Nat)) :=
  let q := h / (K + 1)
  (chunks? (q * w) (List.replicate (w * h) (0 : Nat))).map
    (fun bs => bs.enum.map (fun p => (q * p.1, p.2.length / w)))

/-- Row-range view of the band schedule, used to reason about scheduleBands:
starting at band index j with r rows left, emit (q * j, min q r) and recurse. -/
def rowBandsAux (q : Nat) : Nat → Nat → Nat → List (Nat × Nat)
  | 0, _, _ => []
  | fuel + 1, j, r =>
    if r = 0 then [] else (q * j, min q r) :: rowBandsAux q fuel (j + 1) (r - q)

/-- Observable phases of main after argument parsing. -/
inductive MainEvent
  | renderFull
  | writeImage
  | renderBand (i : Nat)
deriving DecidableEq

/-- Order of the observable phases of main: the sequential full-buffer render,
then the PNG write, then the spawned per-band renders (the bands run
concurrently with one another, but all are spawned after the write returns and
the scope joins them before main exits).  none models the chunk-size-0 panic
of the banded phase. -/
def mainTrace (K w h : Nat) : Option (List MainEvent) :=
  (scheduleBands K w h).map
    (fun rs => MainEvent.renderFull :: MainEvent.writeImage ::
      rs.enum.map (fun p => MainEvent.renderBand p.1))

/-! ### Basic lemmas about the complex arithmetic model -/

theorem Complex64.mul_def (a b : Complex64) :
    a * b = ⟨a.re * b.re - a.im * b.im, a.re * b.im + a.im * b.re⟩ := rfl

theorem Complex64.add_def (a b : Complex64) :
    a + b = ⟨a.re + b.re, a.im + b.im⟩ := rfl

/-! ### Lemmas about the escape-time evaluator -/

theorem zIter_succ (c : Complex64) (n : Nat) :
    zIter c (n + 1) = zIter c n * zIter c n + c := rfl

theorem zIter_zero_c (n : Nat) : zIter ⟨0, 0⟩ n = ⟨0, 0⟩ := by
  induction n with
  | zero => rfl
  | succ n ih =>
    rw [zIter_succ, ih, Complex64.mul_def, Complex64.add_def]
    simp

theorem escapeAux_none_iff (c : Complex64) :
    ∀ (fuel k : Nat), escapeAux c (zIter c k) k fuel = none ↔
      ∀ i, k ≤ i → i < k + fuel → (zIter c (i + 1)).norm_sqr ≤ 4 := by
  intro fuel
  induction fuel with
  | zero =>
    intro k
    simp [escapeAux]
    omega
  | succ fuel ih =>
    intro k
    rw [escapeAux]
    simp only [← zIter_succ]
    by_cases h : 4 < (zIter c (k + 1)).norm_sqr
    · rw [if_pos h]
      constructor
      · intro hfalse
        exact (Option.some_ne_none k hfalse).elim
      · intro hall
        exact absurd (hall k (Nat.le_refl k) (by omega)) (not_le.mpr h)
    · rw [if_neg h]
      rw [ih (k + 1)]
      constructor
      · intro hall i hki hif
        rcases Nat.eq_or_lt_of_le hki with heq | hlt
        · subst heq
          exact le_of_not_lt h
        · exact hall i hlt (by omega)
      · intro hall i hki hif
        exact hall i (by omega) (by omega)

theorem escapeAux_some_iff (c : Complex64) :
    ∀ (fuel k i : Nat), escapeAux c (zIter c k) k fuel = some i ↔
      (k ≤ i ∧ i < k + fuel ∧ 4 < (zIter c (i + 1)).norm_sqr ∧
        ∀ j, k ≤ j → j < i → (zIter c (j + 1)).norm_sqr ≤ 4) := by
  intro fuel
  induction fuel with
  | zero =>
    intro k i
    simp [escapeAux]
    omega
  | succ fuel ih =>
    intro k i
    rw [escapeAux]
    simp only [← zIter_succ]
    by_cases h : 4 < (zIter c (k + 1)).norm_sqr
    · rw [if_pos h]
      constructor
      · intro hsome
        have : k = i := by
          injection hsome
        subst this
        exact ⟨Nat.le_refl k, by omega, h, fun j h1 h2 => absurd h2 (by omega)⟩
      · rintro ⟨h1, h2, h3, h4⟩
        have : i = k := by
          by_contra hne
          have hki : k < i := by omega
          exact absurd (h4 k (Nat.le_refl k) hki) (not_le.mpr h)
        subst this
        rfl
    · rw [if_neg h]
      rw [ih (k + 1) i]
      constructor
      · rintro ⟨h1, h2, h3, h4⟩
        refine ⟨by omega, by omega, h3, ?_⟩
        intro j hkj hji
        rcases Nat.eq_or_lt_of_le hkj with heq | hlt
        · subst heq
          exact le_of_not_lt h
        · exact h4 j hlt hji
      · rintro ⟨h1, h2, h3, h4⟩
        have hki : k ≠ i := by
          intro heq
          subst heq
          exact h h3
        exact ⟨by omega, by omega, h3, fun j a b => h4 j (by omega) b⟩

theorem escape_time_none_iff (c : Complex64) (limit : Nat) :
    escape_time c limit = none ↔
      ∀ i, i < limit → (zIter c (i + 1)).norm_sqr ≤ 4 := by
  have h0 : zIter c 0 = ⟨0, 0⟩ := rfl
  rw [escape_time, ← h0, escapeAux_none_iff c limit 0]
  constructor
  · intro hall i hi
    exact hall i (Nat.zero_le i) (by omega)
  · intro hall i _ hi
    exact hall i (by omega)

theorem escape_time_some_iff (c : Complex64) (limit i : Nat) :
    escape_time c limit = some i ↔
      (i < limit ∧ 4 < (zIter c (i + 1)).norm_sqr ∧
        ∀ j, j < i → (zIter c (j + 1)).norm_sqr ≤ 4) := by
  have h0 : zIter c 0 = ⟨0, 0⟩ := rfl
  rw [escape_time, ← h0, escapeAux_some_iff c limit 0 i]
  constructor
  · rintro ⟨_, h2, h3, h4⟩
    exact ⟨by omega, h3, fun j hj => h4 j (Nat.zero_le j) hj⟩
  · rintro ⟨h1, h2, h3⟩
    exact ⟨Nat.zero_le i, by omega, h2, fun j _ hj => h3 j hj⟩

theorem escape_time_lt (c : Complex64) (limit i : Nat)
    (h : escape_time c limit = some i) : i < limit :=
  ((escape_time_some_iff c limit i).mp h).1

theorem escape_time_origin (limit : Nat) : escape_time ⟨0, 0⟩ limit = none := by
  rw [escape_time_none_iff]
  intro i _
  rw [zIter_zero_c]
  norm_num [Complex64.norm_sqr]

/-! ### Lemmas about the render buffer writes -/

theorem setFold_length (w : Nat) (g : Nat → Nat → Nat) (r : Nat) :
    ∀ (cols : List Nat) (p : List Nat),
      (cols.foldl (fun acc col => acc.set (r * w + col) (g col r)) p).length
        = p.length := by
  intro cols
  induction cols with
  | nil => intro p; rfl
  | cons c cs ih =>
    intro p
    rw [List.foldl_cons, ih, List.length_set]

theorem setFold_get_ne (w : Nat) (g : Nat → Nat → Nat) (r idx : Nat) :
    ∀ (cols : List Nat) (p : List Nat), (∀ c ∈ cols, r * w + c ≠ idx) →
      (cols.foldl (fun acc col => acc.set (r * w + col) (g col r)) p)[idx]?
        = p[idx]? := by
  intro cols
  induction cols with
  | nil => intro p _; rfl
  | cons c cs ih =>
    intro p hne
    rw [List.foldl_cons, ih _ (fun x hx => hne x (List.mem_cons_of_mem c hx)),
      List.getElem?_set_ne (hne c (List.mem_cons_self c cs))]

theorem setFold_hit (w : Nat) (g : Nat → Nat → Nat) (r col : Nat)
    (hcol : col < w) :
    ∀ (p : List Nat), r * w + col < p.length →
      ((List.range w).foldl (fun acc c => acc.set (r * w + c) (g c r)) p)[r * w + col]?
        = some (g col r) := by
  intro p hlt
  have hsplit : List.range w
      = (List.range col ++ [col]) ++ (List.range (w - (col + 1))).map ((col + 1) + ·) := by
    rw [← List.range_succ, ← List.range_add]
    congr 1
    omega
  rw [hsplit, List.foldl_append, List.foldl_append]
  rw [List.foldl_cons, List.foldl_nil]
  rw [setFold_get_ne]
  · rw [List.getElem?_set_self]
    rw [setFold_length]
    exact hlt
  · intro c hc
    rcases List.mem_map.mp hc with ⟨t, _, rfl⟩
    omega

theorem rowsFold_length (w : Nat) (g : Nat → Nat → Nat) :
    ∀ (rows : List Nat) (p : List Nat),
      (rows.foldl (fun acc r =>
        (List.range w).foldl (fun acc2 c => acc2.set (r * w + c) (g c r)) acc) p).length
        = p.length := by
  intro rows
  induction rows with
  | nil => intro p; rfl
  | cons r rs ih =>
    intro p
    rw [List.foldl_cons, ih, setFold_length]

theorem bandIdx_ne (w r row c col : Nat) (hc : c < w) (hcol : col < w)
    (hr : r ≠ row) : r * w + c ≠ row * w + col := by
  intro heq
  have hw : 0 < w := by omega
  have heq' : w * r + c = w * row + col := by
    rw [Nat.mul_comm w r, Nat.mul_comm w row]
    exact heq
  have h1 : (w * r + c) / w = r := by
    rw [Nat.mul_add_div hw, Nat.div_eq_of_lt hc, Nat.add_zero]
  have h2 : (w * row + col) / w = row := by
    rw [Nat.mul_add_div hw, Nat.div_eq_of_lt hcol, Nat.add_zero]
  apply hr
  rw [← h1, ← h2, heq']

theorem rowsFold_get_ne (w : Nat) (g : Nat → Nat → Nat) (row col : Nat)
    (hcol : col < w) :
    ∀ (rows : List Nat) (p : List Nat), (∀ r ∈ rows, r ≠ row) →
      ((rows.foldl (fun acc r =>
        (List.range w).foldl (fun acc2 c => acc2.set (r * w + c) (g c r)) acc) p))[row * w + col]?
        = p[row * w + col]? := by
  intro rows
  induction rows with
  | nil => intro p _; rfl
  | cons r rs ih =>
    intro p hne
    rw [List.foldl_cons, ih _ (fun x hx => hne x (List.mem_cons_of_mem r hx))]
    rw [setFold_get_ne]
    intro c hc
    exact bandIdx_ne w r row c col (List.mem_range.mp hc) hcol
      (hne r (List.mem_cons_self r rs))

theorem rowsFold_hit (w h : Nat) (g : Nat → Nat → Nat) (row col : Nat)
    (hrow : row < h) (hcol : col < w) :
    ∀ (p : List Nat), row * w + col < p.length →
      ((List.range h).foldl (fun acc r =>
        (List.range w).foldl (fun acc2 c => acc2.set (r * w + c) (g c r)) acc) p)[row * w + col]?
        = some (g col row) := by
  intro p hlt
  have hsplit : List.range h
      = (List.range row ++ [row]) ++ (List.range (h - (row + 1))).map ((row + 1) + ·) := by
    rw [← List.range_succ, ← List.range_add]
    congr 1
    omega
  rw [hsplit, List.foldl_append, List.foldl_append]
  rw [List.foldl_cons, List.foldl_nil]
  rw [rowsFold_get_ne w g row col hcol]
  · rw [setFold_hit w g row col hcol]
    rw [rowsFold_length]
    exact hlt
  · intro r hr
    rcases List.mem_map.mp hr with ⟨t, _, rfl⟩
    omega

theorem render_none_iff (pixels : List Nat) (w h : Nat)
    (ul lr : Complex64) :
    render pixels (w, h) ul lr = none ↔ pixels.length ≠ w * h := by
  by_cases hlen : pixels.length = w * h
  · simp [render, hlen]
  · simp [render, hlen]

theorem render_length (pixels : List Nat) (w h : Nat) (ul lr : Complex64)
    (out : List Nat) (hrender : render pixels (w, h) ul lr = some out) :
    out.length = pixels.length := by
  rw [render] at hrender
  split at hrender
  · cases hrender
    exact rowsFold_length w _ _ _
  · exact Option.noConfusion hrender

theorem render_sizes (pixels : List Nat) (w h : Nat) (ul lr : Complex64)
    (out : List Nat) (hrender : render pixels (w, h) ul lr = some out) :
    pixels.length = w * h := by
  rw [render] at hrender
  split at hrender
  · assumption
  · exact Option.noConfusion hrender

theorem idx_lt_size (w h row col : Nat) (hrow : row < h) (hcol : col < w) :
    row * w + col < w * h := by
  have h1 : row * w + col < (row + 1) * w := by
    rw [Nat.succ_mul]
    omega
  have h2 : (row + 1) * w ≤ h * w := Nat.mul_le_mul_right w hrow
  rw [Nat.mul_comm w h]
  omega

theorem render_get (pixels : List Nat) (w h : Nat) (ul lr : Complex64)
    (out : List Nat) (row col : Nat)
    (hrender : render pixels (w, h) ul lr = some out)
    (hrow : row < h) (hcol : col < w) :
    out[row * w + col]? = some (pixelByte (w, h) ul lr col row) := by
  have hlen : pixels.length = w * h := render_sizes pixels w h ul lr out hrender
  rw [render, if_pos hlen] at hrender
  cases hrender
  exact rowsFold_hit w h (fun c r => pixelByte (w, h) ul lr c r) row col
    hrow hcol pixels (by rw [hlen]; exact idx_lt_size w h row col hrow hcol)

/-! ### Lemmas about the band scheduler -/

theorem mul_sub_distrib (w r q : Nat) : w * (r - q) = w * r - w * q := by
  rcases Nat.le_total q r with hle | hle
  · have h1 : w * (r - q) + w * q = w * r := by
      rw [← Nat.mul_add]
      congr 1
      omega
    omega
  · have h1 : r - q = 0 := by omega
    have h2 : w * r ≤ w * q := Nat.mul_le_mul_left w hle
    rw [h1]
    omega

theorem take_replicate_eq {α : Type} (c n : Nat) (a : α) :
    (List.replicate n a).take c = List.replicate (min c n) a := by
  induction c generalizing n with
  | zero => simp
  | succ c ih =>
    cases n with
    | zero => simp
    | succ n =>
      rw [List.replicate_succ, List.take_succ_cons, ih, Nat.succ_min_succ,
        List.replicate_succ]

theorem drop_replicate_eq {α : Type} (c n : Nat) (a : α) :
    (List.replicate n a).drop c = List.replicate (n - c) a := by
  induction c generalizing n with
  | zero => simp
  | succ c ih =>
    cases n with
    | zero => simp
    | succ n =>
      rw [List.replicate_succ, List.drop_succ_cons, ih, Nat.succ_sub_succ]

theorem chunksFuel_nil {α : Type} (c : Nat) :
    ∀ fuel, chunksFuel c fuel ([] : List α) = [] := by
  intro fuel
  cases fuel with
  | zero => rfl
  | succ fuel => rfl

theorem chunksFuel_fuel_zero {α : Type} (c : Nat) (l : List α) :
    chunksFuel c 0 l = [] := by
  cases l with
  | nil => rfl
  | cons a t => rfl

theorem chunksFuel_cons {α : Type} (c fuel : Nat) (l : List α) (hl : l ≠ []) :
    chunksFuel c (fuel + 1) l = l.take c :: chunksFuel c fuel (l.drop c) := by
  cases l with
  | nil => exact absurd rfl hl
  | cons a t => rfl

theorem rowBandsAux_succ (q fuel j r : Nat) :
    rowBandsAux q (fuel + 1) j r
      = if r = 0 then []
        else (q * j, min q r) :: rowBandsAux q fuel (j + 1) (r - q) := rfl

theorem rowBandsAux_zero_rows (q : Nat) :
    ∀ fuel j, rowBandsAux q fuel j 0 = [] := by
  intro fuel j
  cases fuel with
  | zero => rfl
  | succ fuel => rw [rowBandsAux_succ, if_pos rfl]

theorem min_mul_div (q w r : Nat) (hw : 0 < w) :
    min (q * w) (w * r) / w = min q r := by
  rcases Nat.le_total q r with hle | hle
  · rw [Nat.min_eq_left (by rw [Nat.mul_comm q w]; exact Nat.mul_le_mul_left w hle),
      Nat.min_eq_left hle, Nat.mul_div_cancel _ hw]
  · rw [Nat.min_eq_right (by rw [Nat.mul_comm q w]; exact Nat.mul_le_mul_left w hle),
      Nat.min_eq_right hle, Nat.mul_div_cancel_left _ hw]

theorem bands_glue (q w : Nat) (hw : 0 < w) (hq : 0 < q) :
    ∀ (fuel j r : Nat), w * r ≤ fuel →
      ((chunksFuel (q * w) fuel (List.replicate (w * r) (0 : Nat))).enumFrom j).map
        (fun p => (q * p.1, p.2.length / w))
      = rowBandsAux q fuel j r := by
  intro fuel
  induction fuel with
  | zero =>
    intro j r hr
    rw [chunksFuel_fuel_zero]
    rfl
  | succ fuel ih =>
    intro j r hr
    by_cases hr0 : r = 0
    · subst hr0
      rw [Nat.mul_zero]
      rw [show List.replicate 0 (0 : Nat) = [] from rfl, chunksFuel_nil,
        rowBandsAux_zero_rows]
      rfl
    · have hpos : 0 < w * r := Nat.mul_pos hw (Nat.pos_of_ne_zero hr0)
      have hne : List.replicate (w * r) (0 : Nat) ≠ [] := by
        intro hcontra
        have := congrArg List.length hcontra
        simp at this
        omega
      rw [chunksFuel_cons (q * w) fuel _ hne, List.enumFrom_cons, List.map_cons]
      rw [take_replicate_eq, drop_replicate_eq]
      rw [show w * r - q * w = w * (r - q) from by
        rw [mul_sub_distrib, Nat.mul_comm q w]]
      rw [ih (j + 1) (r - q) (by
        have hwq : 0 < w * q := Nat.mul_pos hw hq
        have hsub : w * (r - q) = w * r - w * q := mul_sub_distrib w r q
        omega)]
      rw [rowBandsAux_succ, if_neg hr0]
      congr 2
      rw [List.length_replicate]
      exact min_mul_div q w r hw

theorem scheduleBands_eq (K w h : Nat) (hw : 0 < w) (hq : 0 < h / (K + 1)) :
    scheduleBands K w h
      = some (rowBandsAux (h / (K + 1)) (w * h) 0 h) := by
  have hqw : h / (K + 1) * w ≠ 0 := Nat.mul_ne_zero (by omega) (by omega)
  have hglue := bands_glue (h / (K + 1)) w hw hq (w * h) 0 h (Nat.le_refl _)
  unfold scheduleBands chunks?
  simp only [if_neg hqw, Option.map_some', List.length_replicate]
  exact congrArg some hglue

theorem rowBandsAux_pos (q : Nat) :
    ∀ fuel j r, 0 < r → r ≤ fuel → 0 < (rowBandsAux q fuel j r).length := by
  intro fuel j r hr hfuel
  cases fuel with
  | zero => omega
  | succ fuel =>
    rw [rowBandsAux_succ, if_neg (by omega)]
    simp

theorem rowBandsAux_get (q : Nat) (hq : 0 < q) :
    ∀ (fuel j r i : Nat) (b : Nat × Nat), r ≤ fuel →
      (rowBandsAux q fuel j r)[i]? = some b →
      b.1 = q * (j + i) ∧ b.2 = min q (r - q * i) := by
  intro fuel
  induction fuel with
  | zero =>
    intro j r i b hr hget
    have : r = 0 := by omega
    subst this
    rw [rowBandsAux_zero_rows] at hget
    exact Option.noConfusion hget
  | succ fuel ih =>
    intro j r i b hr hget
    by_cases hr0 : r = 0
    · subst hr0
      rw [rowBandsAux_zero_rows] at hget
      exact Option.noConfusion hget
    · rw [rowBandsAux_succ, if_neg hr0] at hget
      cases i with
      | zero =>
        rw [List.getElem?_cons_zero] at hget
        cases hget
        constructor
        · rw [Nat.add_zero]
        · rw [Nat.mul_zero, Nat.sub_zero]
      | succ i =>
        rw [List.getElem?_cons_succ] at hget
        have hres := ih (j + 1) (r - q) i b (by omega) hget
        constructor
        · rw [hres.1]
          congr 1
          omega
        · rw [hres.2]
          congr 1
          rw [Nat.sub_sub]
          congr 1
          rw [Nat.mul_succ]
          omega

theorem rowBandsAux_length_char (q : Nat) (hq : 0 < q) :
    ∀ (fuel j r : Nat), r ≤ fuel →
      r ≤ q * (rowBandsAux q fuel j r).length ∧
      (0 < r → q * ((rowBandsAux q fuel j r).length - 1) < r) := by
  intro fuel
  induction fuel with
  | zero =>
    intro j r hr
    have : r = 0 := by omega
    subst this
    rw [rowBandsAux_zero_rows]
    simp
  | succ fuel ih =>
    intro j r hr
    by_cases hr0 : r = 0
    · subst hr0
      rw [rowBandsAux_zero_rows]
      simp
    · rw [rowBandsAux_succ, if_neg hr0]
      rcases Nat.lt_or_ge q r with hlt | hge
      · have hfuel2 : r - q ≤ fuel := by omega
        have hposr : 0 < r - q := by omega
        have hpos := rowBandsAux_pos q fuel (j + 1) (r - q) hposr hfuel2
        rcases ih (j + 1) (r - q) hfuel2 with ⟨ih1, ih2⟩
        have ih3 := ih2 hposr
        constructor
        · rw [List.length_cons, Nat.mul_succ]
          omega
        · intro _
          rw [List.length_cons, Nat.add_sub_cancel]
          have hstep : q * (rowBandsAux q fuel (j + 1) (r - q)).length
              = q * ((rowBandsAux q fuel (j + 1) (r - q)).length - 1) + q := by
            rw [← Nat.mul_succ]
            congr 1
            omega
          omega
      · have hzero : r - q = 0 := by omega
        rw [hzero, rowBandsAux_zero_rows]
        constructor
        · rw [List.length_cons, List.length_nil, Nat.mul_succ]
          omega
        · intro _
          rw [List.length_cons, List.length_nil, Nat.add_sub_cancel,
            Nat.mul_zero]
          omega

theorem rowBandsAux_sum (q : Nat) (hq : 0 < q) :
    ∀ (fuel j r : Nat), r ≤ fuel →
      ((rowBandsAux q fuel j r).map Prod.snd).sum = r := by
  intro fuel
  induction fuel with
  | zero =>
    intro j r hr
    have : r = 0 := by omega
    subst this
    rw [rowBandsAux_zero_rows]
    rfl
  | succ fuel ih =>
    intro j r hr
    by_cases hr0 : r = 0
    · subst hr0
      rw [rowBandsAux_zero_rows]
      rfl
    · rw [rowBandsAux_succ, if_neg hr0, List.map_cons, List.sum_cons,
        ih (j + 1) (r - q) (by omega)]
      rcases Nat.le_total q r with hle | hle
      · rw [Nat.min_eq_left hle]
        omega
      · rw [Nat.min_eq_right hle]
        omega

theorem rowBandsAux_top_le (q : Nat) :
    ∀ (fuel j r : Nat) (b : Nat × Nat), b ∈ rowBandsAux q fuel j r →
      q * j ≤ b.1 := by
  intro fuel
  induction fuel with
  | zero =>
    intro j r b hb
    exact absurd hb (List.not_mem_nil b)
  | succ fuel ih =>
    intro j r b hb
    by_cases hr0 : r = 0
    · subst hr0
      rw [rowBandsAux_zero_rows] at hb
      exact absurd hb (List.not_mem_nil b)
    · rw [rowBandsAux_succ, if_neg hr0] at hb
      rcases List.mem_cons.mp hb with heq | hmem
      · rw [heq]
      · calc q * j ≤ q * (j + 1) := Nat.mul_le_mul_left q (by omega)
          _ ≤ b.1 := ih (j + 1) (r - q) b hmem

theorem rowBandsAux_pairwise (q : Nat) :
    ∀ (fuel j r : Nat),
      List.Pairwise (fun b b2 => b.1 + b.2 ≤ b2.1) (rowBandsAux q fuel j r) := by
  intro fuel
  induction fuel with
  | zero =>
    intro j r
    exact List.Pairwise.nil
  | succ fuel ih =>
    intro j r
    by_cases hr0 : r = 0
    · subst hr0
      rw [rowBandsAux_zero_rows]
      exact List.Pairwise.nil
    · rw [rowBandsAux_succ, if_neg hr0]
      refine List.Pairwise.cons ?_ (ih (j + 1) (r - q))
      intro b hb
      have htop := rowBandsAux_top_le q fuel (j + 1) (r - q) b hb
      have hmin : min q r ≤ q := Nat.min_le_left q r
      have hsucc : q * (j + 1) = q * j + q := Nat.mul_succ q j
      omega

theorem rowBandsAux_cover (q : Nat) (hq : 0 < q) :
    ∀ (fuel j r : Nat), r ≤ fuel → ∀ row,
      (∃ b ∈ rowBandsAux q fuel j r, b.1 ≤ row ∧ row < b.1 + b.2)
        ↔ (q * j ≤ row ∧ row < q * j + r) := by
  intro fuel
  induction fuel with
  | zero =>
    intro j r hr row
    have : r = 0 := by omega
    subst this
    rw [rowBandsAux_zero_rows]
    constructor
    · rintro ⟨b, hb, _⟩
      exact absurd hb (List.not_mem_nil b)
    · rintro ⟨h1, h2⟩
      omega
  | succ fuel ih =>
    intro j r hr row
    by_cases hr0 : r = 0
    · subst hr0
      rw [rowBandsAux_zero_rows]
      constructor
      · rintro ⟨b, hb, _⟩
        exact absurd hb (List.not_mem_nil b)
      · rintro ⟨h1, h2⟩
        omega
    · rw [rowBandsAux_succ, if_neg hr0]
      have hsucc : q * (j + 1) = q * j + q := Nat.mul_succ q j
      have hrec := ih (j + 1) (r - q) (by omega)
      constructor
      · rintro ⟨b, hb, hle, hlt⟩
        rcases List.mem_cons.mp hb with heq | hmem
        · subst heq
          have hmin1 : min q r ≤ r := Nat.min_le_right q r
          constructor
          · exact hle
          · omega
        · rcases Nat.lt_or_ge q r with hqr | hqr
          · have := (hrec row).mp ⟨b, hmem, hle, hlt⟩
            omega
          · have hzero : r - q = 0 := by omega
            rw [hzero, rowBandsAux_zero_rows] at hmem
            exact absurd hmem (List.not_mem_nil b)
      · rintro ⟨h1, h2⟩
        by_cases hrow : row < q * j + min q r
        · exact ⟨(q * j, min q r), List.mem_cons_self _ _, h1, hrow⟩
        · push_neg at hrow
          rcases Nat.le_total r q with hrq | hrq
          · rw [Nat.min_eq_right hrq] at hrow
            omega
          · rw [Nat.min_eq_left hrq] at hrow
            rcases (hrec row).mpr ⟨by omega, by omega⟩ with ⟨b, hmem, hble, hblt⟩
            exact ⟨b, List.mem_cons_of_mem _ hmem, hble, hblt⟩

/-! ### Lemmas about the pair parser -/

theorem findChar_iff (sep : Char) :
    ∀ (s : List Char) (idx : Nat),
      findChar sep s = some idx ↔ (s[idx]? = some sep ∧ sep ∉ s.take idx) := by
  intro s
  induction s with
  | nil =>
    intro idx
    simp [findChar]
  | cons c cs ih =>
    intro idx
    by_cases hc : c = sep
    · subst hc
      rw [findChar, if_pos rfl]
      cases idx with
      | zero => simp
      | succ i =>
        constructor
        · intro hcontra
          exact absurd (Option.some.inj hcontra) (by omega)
        · rintro ⟨_, h2⟩
          rw [List.take_succ_cons] at h2
          exact absurd (List.mem_cons_self c _) h2
    · rw [findChar, if_neg hc]
      cases idx with
      | zero =>
        constructor
        · intro hcontra
          rcases Option.map_eq_some'.mp hcontra with ⟨a, _, hadd⟩
          have : a + 1 = 0 := hadd
          omega
        · rintro ⟨h1, _⟩
          rw [List.getElem?_cons_zero] at h1
          exact absurd (Option.some.inj h1) hc
      | succ i =>
        rw [List.getElem?_cons_succ, List.take_succ_cons]
        constructor
        · intro hmap
          rcases Option.map_eq_some'.mp hmap with ⟨a, ha, hadd⟩
          have haeq : a + 1 = i + 1 := hadd
          have haei : a = i := by omega
          rw [haei] at ha
          rcases (ih i).mp ha with ⟨h1, h2⟩
          refine ⟨h1, ?_⟩
          intro hmem
          rcases List.mem_cons.mp hmem with heq | hmem2
          · exact hc heq.symm
          · exact h2 hmem2
        · rintro ⟨h1, h2⟩
          have h2' : sep ∉ cs.take i := fun hm => h2 (List.mem_cons_of_mem c hm)
          rw [(ih i).mpr ⟨h1, h2'⟩]
          rfl

theorem parse_pair_eq_some_iff {T : Type} (fromStr : List Char → Option T)
    (s : List Char) (sep : Char) (l r : T) :
    parse_pair fromStr s sep = some (l, r) ↔
      ∃ idx, findChar sep s = some idx ∧ fromStr (s.take idx) = some l ∧
        fromStr (s.drop (idx + 1)) = some r := by
  unfold parse_pair
  cases hf : findChar sep s with
  | none => simp
  | some idx =>
    cases ht : fromStr (s.take idx) with
    | none =>
      cases hd : fromStr (s.drop (idx + 1)) with
      | none => simp [ht, hd]
      | some b => simp [ht, hd]
    | some a =>
      cases hd : fromStr (s.drop (idx + 1)) with
      | none => simp [ht, hd]
      | some b =>
        simp [ht, hd, Prod.ext_iff]

theorem f64FromStr_400 : f64FromStr "400.0".toList = some 400 := by
  have h1 : findChar '.' "400.0".toList = some 3 := by decide
  have h2 : decDigits ['4', '0', '0'] = some 400 := by decide
  have h3 : decDigits ['0'] = some 0 := by decide
  show f64Core "400.0".toList = some 400
  rw [f64Core, h1]
  norm_num [h2, h3]
  decide

theorem f64FromStr_600p5 : f64FromStr "600.5".toList = some (1201 / 2) := by
  have h1 : findChar '.' "600.5".toList = some 3 := by decide
  have h2 : decDigits ['6', '0', '0'] = some 600 := by decide
  have h3 : decDigits ['5'] = some 5 := by decide
  show f64Core "600.5".toList = some (1201 / 2)
  rw [f64Core, h1]
  norm_num [h2, h3]
  decide

theorem f64FromStr_1p25 : f64FromStr "1.25".toList = some (5 / 4) := by
  have h1 : findChar '.' "1.25".toList = some 1 := by decide
  have h2 : decDigits ['1'] = some 1 := by decide
  have h3 : decDigits ['2', '5'] = some 25 := by decide
  show f64Core "1.25".toList = some (5 / 4)
  rw [f64Core, h1]
  norm_num [h2, h3]
  decide

theorem f64FromStr_neg0p0625 :
    f64FromStr "-0.0625".toList = some (-(1 / 16)) := by
  have h1 : findChar '.' "0.0625".toList = some 1 := by decide
  have h2 : decDigits ['0'] = some 0 := by decide
  have h3 : decDigits ['0', '6', '2', '5'] = some 625 := by decide
  show f64FromStr ('-' :: "0.0625".toList) = some (-(1 / 16))
  rw [f64FromStr, if_pos rfl, f64Core, h1]
  norm_num [h2, h3]
  decide

theorem parse_pair_400x600 :
    parse_pair f64FromStr "400.0x600.5".toList 'x' = some (400, 1201 / 2) := by
  rw [parse_pair_eq_some_iff]
  refine ⟨5, by decide, ?_, ?_⟩
  · rw [show "400.0x600.5".toList.take 5 = "400.0".toList from by decide]
    exact f64FromStr_400
  · rw [show "400.0x600.5".toList.drop 6 = "600.5".toList from by decide]
    exact f64FromStr_600p5

theorem parse_complex_eval :
    parse_complex "1.25,-0.0625".toList = some ⟨5 / 4, -(1 / 16)⟩ := by
  have hpair : parse_pair f64FromStr "1.25,-0.0625".toList ','
      = some (5 / 4, -(1 / 16)) := by
    rw [parse_pair_eq_some_iff]
    refine ⟨4, by decide, ?_, ?_⟩
    · rw [show "1.25,-0.0625".toList.take 4 = "1.25".toList from by decide]
      exact f64FromStr_1p25
    · rw [show "1.25,-0.0625".toList.drop 5 = "-0.0625".toList from by decide]
      exact f64FromStr_neg0p0625
  unfold parse_complex
  rw [hpair]

/-! ### Helper lemmas about pixel bytes and a small concrete render -/

theorem pixelByte_none (bounds : Nat × Nat) (ul lr : Complex64) (col row : Nat)
    (h : escape_time (pixel_to_point bounds (col, row) ul lr) 255 = none) :
    pixelByte bounds ul lr col row = 0 := by
  unfold pixelByte
  rw [h]

theorem pixelByte_some (bounds : Nat × Nat) (ul lr : Complex64)
    (col row count : Nat)
    (h : escape_time (pixel_to_point bounds (col, row) ul lr) 255 = some count) :
    pixelByte bounds ul lr col row = 255 - count := by
  unfold pixelByte
  rw [h]
  have hlt := escape_time_lt _ 255 count h
  show 255 - count % 256 = 255 - count
  rw [Nat.mod_eq_of_lt (by omega)]

theorem pixelByte_eq_zero_iff (bounds : Nat × Nat) (ul lr : Complex64)
    (col row : Nat) :
    pixelByte bounds ul lr col row = 0 ↔
      escape_time (pixel_to_point bounds (col, row) ul lr) 255 = none := by
  cases h : escape_time (pixel_to_point bounds (col, row) ul lr) 255 with
  | none => simp [pixelByte_none bounds ul lr col row h]
  | some count =>
    have hlt := escape_time_lt _ 255 count h
    rw [pixelByte_some bounds ul lr col row count h]
    constructor
    · intro h0
      omega
    · intro hcontra
      exact Option.noConfusion hcontra

theorem point_three : pixel_to_point (1, 1) (0, 0) ⟨3, 0⟩ ⟨3, 0⟩ = ⟨3, 0⟩ := by
  simp only [pixel_to_point, Complex64.mk.injEq]
  norm_num

theorem escape_three : escape_time ⟨3, 0⟩ 255 = some 0 := by
  rw [escape_time, escapeAux]
  norm_num [Complex64.mul_def, Complex64.add_def, Complex64.norm_sqr]

theorem pixelByte_three : pixelByte (1, 1) ⟨3, 0⟩ ⟨3, 0⟩ 0 0 = 255 := by
  have h : escape_time (pixel_to_point (1, 1) (0, 0) ⟨3, 0⟩ ⟨3, 0⟩) 255
      = some 0 := by
    rw [point_three]
    exact escape_three
  rw [pixelByte_some (1, 1) ⟨3, 0⟩ ⟨3, 0⟩ 0 0 0 h]

theorem render_tiny : render [0] (1, 1) ⟨3, 0⟩ ⟨3, 0⟩ = some [255] := by
  rw [render, if_pos (by decide)]
  congr 1
  rw [show List.range 1 = [0] from rfl]
  simp only [List.foldl_cons, List.foldl_nil]
  rw [show (0 : Nat) * 1 + 0 = 0 from rfl, pixelByte_three]
  rfl

/-! ### Claim theorems -/

/-- C6: the Escape-Time Evaluator iterates z from z₀ = 0 by z ← z*z + c;
it returns some i exactly when i < limit and iteration i (checked right after
the update) is the first whose squared norm exceeds 4, it returns the distinct
sentinel none exactly when no iteration below the limit escapes, and in
particular escape_time 0 limit = none for every positive limit. -/
theorem C6_escape_time_spec :
    (∀ (c : Complex64) (limit i : Nat),
      escape_time c limit = some i ↔
        (i < limit ∧ 4 < (zIter c (i + 1)).norm_sqr ∧
          ∀ j, j < i → (zIter c (j + 1)).norm_sqr ≤ 4)) ∧
    (∀ (c : Complex64) (limit : Nat),
      escape_time c limit = none ↔
        ∀ i, i < limit → (zIter c (i + 1)).norm_sqr ≤ 4) ∧
    (∀ limit : Nat, 0 < limit → escape_time ⟨0, 0⟩ limit = none) :=
  ⟨escape_time_some_iff, escape_time_none_iff,
    fun limit _ => escape_time_origin limit⟩

/-- Witness for C6: concrete instance at limit 255. -/
theorem C6_escape_time_spec_witness :
    0 < 255 ∧ escape_time ⟨0, 0⟩ 255 = none :=
  ⟨by decide, C6_escape_time_spec.2.2 255 (by decide)⟩

/-- C4 (amended): for even bounds (2a, 2b) with a, b nonzero, the Coordinate
Mapper sends the center pixel (a, b) to the average of the two corner points,
for any corners.  For bounds (100,100) with corners (-1,1) and (1,-1) the
exact center pixel (50,50) therefore maps to (0,0), the average of the
corners — not to (-0.5,-0.5); the pixel that maps to (-0.5,-0.5) is (25,75). -/
theorem C4_center_pixel (a b : Nat) (ul lr : Complex64)
    (ha : a ≠ 0) (hb : b ≠ 0) :
    pixel_to_point (2 * a, 2 * b) (a, b) ul lr
      = ⟨(ul.re + lr.re) / 2, (ul.im + lr.im) / 2⟩ ∧
    pixel_to_point (100, 100) (50, 50) ⟨-1, 1⟩ ⟨1, -1⟩ = ⟨0, 0⟩ ∧
    pixel_to_point (100, 100) (25, 75) ⟨-1, 1⟩ ⟨1, -1⟩
      = ⟨-(1 / 2), -(1 / 2)⟩ := by
  refine ⟨?_, ?_, ?_⟩
  · have ha' : (a : ℚ) ≠ 0 := Nat.cast_ne_zero.mpr ha
    have hb' : (b : ℚ) ≠ 0 := Nat.cast_ne_zero.mpr hb
    simp only [pixel_to_point, Complex64.mk.injEq]
    constructor
    · push_cast
      field_simp
      ring
    · push_cast
      field_simp
      ring
  · simp only [pixel_to_point, Complex64.mk.injEq]
    norm_num
  · simp only [pixel_to_point, Complex64.mk.injEq]
    norm_num

/-- Witness for C4: the midpoint law applied at a = b = 50 with the corners
(-1,1) and (1,-1). -/
theorem C4_center_pixel_witness :
    pixel_to_point (2 * 50, 2 * 50) (50, 50) ⟨-1, 1⟩ ⟨1, -1⟩
      = ⟨((-1 : ℚ) + 1) / 2, ((1 : ℚ) + -1) / 2⟩ :=
  (C4_center_pixel 50 50 ⟨-1, 1⟩ ⟨1, -1⟩ (by decide) (by decide)).1

/-- Counterexample for C4 as stated: the exact center pixel (50,50) of bounds
(100,100) with corners (-1,1) and (1,-1) does not map to (-0.5,-0.5). -/
theorem C4_center_pixel_cex :
    pixel_to_point (100, 100) (50, 50) ⟨-1, 1⟩ ⟨1, -1⟩
      ≠ ⟨-(1 / 2), -(1 / 2)⟩ := by
  simp only [pixel_to_point, Complex64.mk.injEq]
  norm_num

/-- C7: for every (row, col) within bounds the Band Renderer writes at buffer
index row * w + col the byte 0 when the mapped point does not escape within
the fixed limit of 255 iterations, and 255 - count when it escapes at
iteration count; a point escaping at iteration 0 yields 255. -/
theorem C7_render_bytes (pixels : List Nat) (w h : Nat) (ul lr : Complex64)
    (out : List Nat) (row col : Nat)
    (hrender : render pixels (w, h) ul lr = some out)
    (hrow : row < h) (hcol : col < w) :
    out[row * w + col]? = some (pixelByte (w, h) ul lr col row) ∧
    (escape_time (pixel_to_point (w, h) (col, row) ul lr) 255 = none →
      pixelByte (w, h) ul lr col row = 0) ∧
    (∀ count,
      escape_time (pixel_to_point (w, h) (col, row) ul lr) 255 = some count →
      pixelByte (w, h) ul lr col row = 255 - count) ∧
    (escape_time (pixel_to_point (w, h) (col, row) ul lr) 255 = some 0 →
      pixelByte (w, h) ul lr col row = 255) :=
  ⟨render_get pixels w h ul lr out row col hrender hrow hcol,
    pixelByte_none (w, h) ul lr col row,
    fun count hc => pixelByte_some (w, h) ul lr col row count hc,
    fun hc => pixelByte_some (w, h) ul lr col row 0 hc⟩

/-- Witness for C7: a 1-by-1 render at the point 3 + 0i, which escapes at
iteration 0 and receives byte 255. -/
theorem C7_render_bytes_witness :
    ∃ out, render [0] (1, 1) ⟨3, 0⟩ ⟨3, 0⟩ = some out ∧
      out[0]? = some (pixelByte (1, 1) ⟨3, 0⟩ ⟨3, 0⟩ 0 0) := by
  refine ⟨[255], render_tiny, ?_⟩
  have hres := (C7_render_bytes [0] 1 1 ⟨3, 0⟩ ⟨3, 0⟩ [255] 0 0 render_tiny
    (by decide) (by decide)).1
  simpa using hres

/-- C8: the Band Renderer fails with its fatal assertion exactly when
pixels.len ≠ w * h; under the precondition the assertion passes, the buffer
keeps its length, and every index row * w + col it writes (row < h, col < w)
is strictly below pixels.len, so no out-of-range access occurs. -/
theorem C8_render_assert (pixels : List Nat) (w h : Nat) (ul lr : Complex64) :
    (render pixels (w, h) ul lr = none ↔ pixels.length ≠ w * h) ∧
    (∀ out, render pixels (w, h) ul lr = some out →
      out.length = pixels.length ∧
      ∀ row col, row < h → col < w → row * w + col < pixels.length) := by
  refine ⟨render_none_iff pixels w h ul lr, ?_⟩
  intro out hout
  refine ⟨render_length pixels w h ul lr out hout, ?_⟩
  intro row col hrow hcol
  rw [render_sizes pixels w h ul lr out hout]
  exact idx_lt_size w h row col hrow hcol

/-- Witness for C8: on the 1-by-1 render the assertion passes, the output is
as long as the input, and the single written index is in bounds. -/
theorem C8_render_assert_witness :
    ([(255 : Nat)].length = [(0 : Nat)].length) ∧
      (0 : Nat) * 1 + 0 < [(0 : Nat)].length := by
  have hres := (C8_render_assert [0] 1 1 ⟨3, 0⟩ ⟨3, 0⟩).2 [255] render_tiny
  exact ⟨hres.1, hres.2 0 0 (by decide) (by decide)⟩

/-- C10: with the fixed limit 255 every escape count is strictly below 255,
so 255 - count never wraps in u8 and every escaping pixel receives a byte in
1..=255; a rendered byte equals 0 exactly when its point did not escape
within 255 iterations. -/
theorem C10_zero_sentinel :
    (∀ (c : Complex64) (i : Nat), escape_time c 255 = some i → i < 255) ∧
    (∀ (pixels : List Nat) (w h : Nat) (ul lr : Complex64) (out : List Nat)
      (row col : Nat), render pixels (w, h) ul lr = some out →
      row < h → col < w →
      ((out[row * w + col]? = some 0 ↔
        escape_time (pixel_to_point (w, h) (col, row) ul lr) 255 = none) ∧
      (∀ count,
        escape_time (pixel_to_point (w, h) (col, row) ul lr) 255 = some count →
        out[row * w + col]? = some (255 - count) ∧
          1 ≤ 255 - count ∧ 255 - count ≤ 255))) := by
  constructor
  · intro c i hi
    exact escape_time_lt c 255 i hi
  · intro pixels w h ul lr out row col hrender hrow hcol
    have hget := render_get pixels w h ul lr out row col hrender hrow hcol
    constructor
    · rw [hget]
      rw [Option.some_inj]
      exact pixelByte_eq_zero_iff (w, h) ul lr col row
    · intro count hcount
      have hlt := escape_time_lt _ 255 count hcount
      refine ⟨?_, by omega, by omega⟩
      rw [hget, pixelByte_some (w, h) ul lr col row count hcount]

/-- Witness for C10: on the 1-by-1 render the written byte 255 is nonzero and
equals 255 - 0 for the escape count 0 of its point. -/
theorem C10_zero_sentinel_witness :
    ∃ out, render [0] (1, 1) ⟨3, 0⟩ ⟨3, 0⟩ = some out ∧
      (out[0]? = some 0 ↔
        escape_time (pixel_to_point (1, 1) (0, 0) ⟨3, 0⟩ ⟨3, 0⟩) 255 = none) := by
  refine ⟨[255], render_tiny, ?_⟩
  have hres := ((C10_zero_sentinel).2 [0] 1 1 ⟨3, 0⟩ ⟨3, 0⟩ [255] 0 0
    render_tiny (by decide) (by decide)).1
  simpa using hres

/-- C2 (amended): whenever main reaches the banded phase, its observable trace
is exactly: the sequential full-buffer render, then the single image write,
then only per-band renders — i.e. the PNG is written exactly once, after the
sequential render completes and before the parallel banded re-render starts,
so the serialized bytes are those of the sequential render. -/
theorem C2_write_order (K w h : Nat) (t : List MainEvent)
    (htrace : mainTrace K w h = some t) :
    t[0]? = some MainEvent.renderFull ∧
    t[1]? = some MainEvent.writeImage ∧
    (∀ j, t[j]? = some MainEvent.writeImage → j = 1) ∧
    (∀ j e, t[2 + j]? = some e → ∃ i, e = MainEvent.renderBand i) := by
  unfold mainTrace at htrace
  rcases Option.map_eq_some'.mp htrace with ⟨rs, _, heq⟩
  subst heq
  refine ⟨by simp, by simp, ?_, ?_⟩
  · intro j hj
    match j with
    | 0 =>
      rw [List.getElem?_cons_zero] at hj
      exact absurd (Option.some.inj hj) (by simp)
    | 1 => rfl
    | j + 2 =>
      rw [List.getElem?_cons_succ, List.getElem?_cons_succ] at hj
      rw [List.getElem?_map] at hj
      rcases Option.map_eq_some'.mp hj with ⟨p, _, hp⟩
      exact absurd hp (by simp)
  · intro j e hj
    rw [show 2 + j = (j + 1) + 1 from by omega] at hj
    rw [List.getElem?_cons_succ, List.getElem?_cons_succ] at hj
    rw [List.getElem?_map] at hj
    rcases Option.map_eq_some'.mp hj with ⟨p, _, hp⟩
    exact ⟨p.1, hp.symm⟩

/-- Witness for C2: the trace on bounds 1 by 9 with the source worker count. -/
theorem C2_write_order_witness :
    ∃ t, mainTrace THREADS 1 9 = some t ∧ t[1]? = some MainEvent.writeImage := by
  have h : mainTrace THREADS 1 9
      = some [MainEvent.renderFull, MainEvent.writeImage,
        MainEvent.renderBand 0, MainEvent.renderBand 1, MainEvent.renderBand 2,
        MainEvent.renderBand 3, MainEvent.renderBand 4, MainEvent.renderBand 5,
        MainEvent.renderBand 6, MainEvent.renderBand 7,
        MainEvent.renderBand 8] := by decide
  refine ⟨_, h, ?_⟩
  exact (C2_write_order THREADS 1 9 _ h).2.1

/-- Counterexample for C2 as stated: on bounds 1 by 9 the trace of main has
the image write at index 1 and a band render at index 2, so the write is not
after the banded render — the file is written before the banded re-render. -/
theorem C2_write_order_cex :
    ∃ t, mainTrace THREADS 1 9 = some t ∧
      ¬ (∀ (i j b : Nat), t[i]? = some MainEvent.writeImage →
          t[j]? = some (MainEvent.renderBand b) → j < i) := by
  refine ⟨[MainEvent.renderFull, MainEvent.writeImage,
    MainEvent.renderBand 0, MainEvent.renderBand 1, MainEvent.renderBand 2,
    MainEvent.renderBand 3, MainEvent.renderBand 4, MainEvent.renderBand 5,
    MainEvent.renderBand 6, MainEvent.renderBand 7,
    MainEvent.renderBand 8], by decide, ?_⟩
  intro hall
  have := hall 1 2 0 (by decide) (by decide)
  omega

/-- C3 (amended): for width > 0 and h ≥ 9 the scheduler splits the buffer
into contiguous row-bands of rows_per_band = h / (THREADS + 1) = h / 9 full
rows each — band i starting at row (h/9)*i, every band except possibly the
last having exactly h/9 rows and the last at most h/9 — and the band heights
sum to h, so no rows are dropped.  The number of bands is exactly 9 when
9 divides h and strictly more than 9 otherwise; the claimed "exactly 9 bands
for every h" fails (and for h < 9 the banded phase panics). -/
theorem C3_band_layout (w h : Nat) (hw : 0 < w) (hh : 9 ≤ h) :
    ∃ rs, scheduleBands THREADS w h = some rs ∧
      (∀ i b, rs[i]? = some b →
        b.1 = h / 9 * i ∧ b.2 ≤ h / 9 ∧ (i + 1 < rs.length → b.2 = h / 9)) ∧
      (rs.map Prod.snd).sum = h ∧
      (9 ∣ h → rs.length = 9) ∧
      (¬ 9 ∣ h → 9 < rs.length) := by
  have h9 : THREADS + 1 = 9 := rfl
  have hq : 0 < h / 9 := (Nat.one_le_div_iff (by norm_num)).mpr hh
  have hsch : scheduleBands THREADS w h
      = some (rowBandsAux (h / 9) (w * h) 0 h) :=
    scheduleBands_eq THREADS w h hw hq
  have hfuel : h ≤ w * h := Nat.le_mul_of_pos_left h hw
  have hlen := rowBandsAux_length_char (h / 9) hq (w * h) 0 h hfuel
  refine ⟨rowBandsAux (h / 9) (w * h) 0 h, hsch, ?_, ?_, ?_, ?_⟩
  · intro i b hb
    have hget := rowBandsAux_get (h / 9) hq (w * h) 0 h i b hfuel hb
    have hb1 : b.1 = h / 9 * i := by
      rw [hget.1, Nat.zero_add]
    refine ⟨hb1, ?_, ?_⟩
    · rw [hget.2]
      exact Nat.min_le_left _ _
    · intro hi
      have hlt : (h / 9) * (i + 1) ≤ (h / 9) * ((rowBandsAux (h / 9) (w * h) 0 h).length - 1) :=
        Nat.mul_le_mul_left _ (by omega)
    
      have hlast := hlen.2 (by omega)
      have hmul : (h / 9) * (i + 1) = (h / 9) * i + h / 9 := Nat.mul_succ _ _
      rw [hget.2]
      have : h / 9 ≤ h - (h / 9) * i := by omega
      rw [Nat.min_eq_left this]
  · exact rowBandsAux_sum (h / 9) hq (w * h) 0 h hfuel
  · intro hdvd
    have hmul : h / 9 * 9 = h := Nat.div_mul_cancel hdvd
    have h1 := hlen.1
    have h2 := hlen.2 (by omega)
    have hge : 9 ≤ (rowBandsAux (h / 9) (w * h) 0 h).length := by
      by_contra hcontra
      push_neg at hcontra
      have : (h / 9) * (rowBandsAux (h / 9) (w * h) 0 h).length ≤ h / 9 * 8 :=
        Nat.mul_le_mul_left _ (by omega)
      have h89 : h / 9 * 8 < h / 9 * 9 := (Nat.mul_lt_mul_left hq).mpr (by omega)
      omega
    have hle : (rowBandsAux (h / 9) (w * h) 0 h).length ≤ 9 := by
      by_contra hcontra
      push_neg at hcontra
      have : (h / 9) * 9 ≤ (h / 9) * ((rowBandsAux (h / 9) (w * h) 0 h).length - 1) :=
        Nat.mul_le_mul_left _ (by omega)
      omega
    omega
  · intro hndvd
    have hmod := Nat.div_add_mod h 9
    have hmodpos : 0 < h % 9 := by
      rcases Nat.eq_zero_or_pos (h % 9) with h0 | hpos
      · exact absurd (Nat.dvd_iff_mod_eq_zero.mpr h0) hndvd
      · exact hpos
    have h1 := hlen.1
    by_contra hcontra
    push_neg at hcontra
    have : (h / 9) * (rowBandsAux (h / 9) (w * h) 0 h).length ≤ h / 9 * 9 :=
      Nat.mul_le_mul_left _ hcontra
    have h99 : 9 * (h / 9) = h / 9 * 9 := Nat.mul_comm _ _
    omega

/-- Witness for C3: width 1, height 9 gives bands summing to 9 rows. -/
theorem C3_band_layout_witness :
    ∃ rs, scheduleBands THREADS 1 9 = some rs ∧ (rs.map Prod.snd).sum = 9 := by
  rcases C3_band_layout 1 9 (by decide) (by decide) with ⟨rs, hrs, _, hsum, _, _⟩
  exact ⟨rs, hrs, hsum⟩

/-- Counterexample for C3 as stated: at width 1 and height 10 the scheduler
produces 10 bands (rows_per_band = 10 / 9 = 1 row each), not THREADS + 1 = 9. -/
theorem C3_band_layout_cex :
    ¬ ∃ rs, scheduleBands THREADS 1 10 = some rs ∧ rs.length = 9 := by
  rintro ⟨rs, hrs, hlen⟩
  have heval : scheduleBands THREADS 1 10 = some
      [(0, 1), (1, 1), (2, 1), (3, 1), (4, 1),
       (5, 1), (6, 1), (7, 1), (8, 1), (9, 1)] := by decide
  rw [heval] at hrs
  cases hrs
  exact absurd hlen (by decide)

/-- C5 (amended): for every worker count K, width > 0 and height h ≥ K + 1,
the bands produced by the scheduler have pairwise disjoint, contiguous row
ranges whose union is exactly the rows 0 to h - 1; for h < K + 1 the claim
fails because rows_per_band = 0 makes chunks_mut panic, so no bands are
produced at all. -/
theorem C5_partition (K w h : Nat) (hw : 0 < w) (hh : K + 1 ≤ h) :
    ∃ rs, scheduleBands K w h = some rs ∧
      List.Pairwise (fun b b2 => b.1 + b.2 ≤ b2.1) rs ∧
      ∀ row, (∃ b ∈ rs, b.1 ≤ row ∧ row < b.1 + b.2) ↔ row < h := by
  have hq : 0 < h / (K + 1) := (Nat.one_le_div_iff (by omega)).mpr hh
  have hsch := scheduleBands_eq K w h hw hq
  have hfuel : h ≤ w * h := Nat.le_mul_of_pos_left h hw
  refine ⟨_, hsch, rowBandsAux_pairwise _ (w * h) 0 h, ?_⟩
  intro row
  rw [rowBandsAux_cover (h / (K + 1)) hq (w * h) 0 h hfuel row]
  rw [Nat.mul_zero]
  omega

/-- Witness for C5: the partition at the source worker count 8 with width 1
and height 9. -/
theorem C5_partition_witness :
    ∃ rs, scheduleBands 8 1 9 = some rs ∧
      List.Pairwise (fun b b2 => b.1 + b.2 ≤ b2.1) rs ∧
      ∀ row, (∃ b ∈ rs, b.1 ≤ row ∧ row < b.1 + b.2) ↔ row < 9 :=
  C5_partition 8 1 9 (by decide) (by decide)

/-- Counterexample for C5 as stated: at height 1 with worker count 1 (and
width 1) rows_per_band = 0, chunks_mut panics, and no band list is produced,
so there is no partition of the row range at all. -/
theorem C5_partition_cex :
    ¬ ∃ rs, scheduleBands 1 1 1 = some rs ∧
      ∀ row, (∃ b ∈ rs, b.1 ≤ row ∧ row < b.1 + b.2) ↔ row < 1 := by
  rintro ⟨rs, hrs, _⟩
  have hnone : scheduleBands 1 1 1 = none := by decide
  rw [hnone] at hrs
  exact Option.noConfusion hrs

/-- C9: parse_pair returns some (left, right) exactly when the separator
occurs in the input and the substrings before the first occurrence and after
it both parse with the element parser, and none otherwise (findChar is
characterized as the first occurrence); concretely, over the modelled std
parsers: "10,20" with comma gives (10,20), "10x20" with comma gives none,
"400.0x" with separator x gives none (empty trailing field),
"400.0x600.5" with separator x gives (400.0, 600.5), and the complex parser
composed on it maps "1.25,-0.0625" to 1.25 - 0.0625i and ",-1.0256" (empty
leading field) to none. -/
theorem C9_parse_pair_spec :
    (∀ (T : Type) (fromStr : List Char → Option T) (s : List Char)
      (sep : Char) (l r : T),
      parse_pair fromStr s sep = some (l, r) ↔
        ∃ idx, findChar sep s = some idx ∧ fromStr (s.take idx) = some l ∧
          fromStr (s.drop (idx + 1)) = some r) ∧
    (∀ (sep : Char) (s : List Char) (idx : Nat),
      findChar sep s = some idx ↔ (s[idx]? = some sep ∧ sep ∉ s.take idx)) ∧
    parse_pair u32FromStr "10,20".toList ',' = some (10, 20) ∧
    parse_pair u32FromStr "10x20".toList ',' = none ∧
    parse_pair f64FromStr "400.0x".toList 'x' = none ∧
    parse_pair f64FromStr "400.0x600.5".toList 'x' = some (400, 1201 / 2) ∧
    parse_complex "1.25,-0.0625".toList = some ⟨5 / 4, -(1 / 16)⟩ ∧
    parse_complex ",-1.0256".toList = none :=
  ⟨fun T fromStr s sep l r => parse_pair_eq_some_iff fromStr s sep l r,
    fun sep => findChar_iff sep,
    by decide, by decide, by decide,
    parse_pair_400x600, parse_complex_eval, by decide⟩
